import Mathlib

/-! Verification of the Computational Geospatial Intelligence Framework
scripts: the sector view classifier of the Competing Developments Analysis
script, the acoustic exposure estimator of the Road Traffic Noise Impact
script, and the identifier resolvers.  Numeric values carried by pandas
series are modelled as rationals where the code is exact arithmetic and as
reals where it applies logarithms; shapely geometry predicates (area of an
intersection, an intersects test) enter as explicit numeric or Boolean
inputs constrained by the geometric facts they satisfy. -/

namespace SiteAnalysis

/-- The four view categories assigned to sectors. -/
inductive View where
  | GREEN : View
  | WATER : View
  | CITY : View
  | OPEN : View
deriving DecidableEq

/-- One row of the per-sector metric table built by the metric collection
loop: sector bounds in degrees and the four raw metrics.  The field stop is
the column named end in the script (a Lean keyword). -/
structure SectorMetrics where
  start : ℚ
  stop : ℚ
  green : ℚ
  water : ℚ
  building : ℚ
  avg_height : ℚ
deriving DecidableEq

/-- A classified sector row or a merged view arc: start angle, end angle and
classification. -/
structure Arc where
  start : ℚ
  stop : ℚ
  view : View
deriving DecidableEq

/-- Minimum of a pandas series, as the minimum of its list of values. -/
def seriesMin : List ℚ → ℚ
  | [] => 0
  | h :: t => t.foldl min h

/-- Maximum of a pandas series, as the maximum of its list of values. -/
def seriesMax : List ℚ → ℚ
  | [] => 0
  | h :: t => t.foldl max h

/-- The normalize function of the script: min-max normalization of a series
across sectors, with the all-equal series sent to series * 0 instead of
dividing by the zero range. -/
def normalize (s : List ℚ) : List ℚ :=
  if seriesMax s - seriesMin s = 0 then s.map (fun x => x * 0)
  else s.map (fun x => (x - seriesMin s) / (seriesMax s - seriesMin s))

/-- city_score column: height_n * density_n. -/
def city_score (height_n density_n : ℚ) : ℚ := height_n * density_n

/-- green_score column: green_n. -/
def green_score (green_n : ℚ) : ℚ := green_n

/-- water_score column: water_n. -/
def water_score (water_n : ℚ) : ℚ := water_n

/-- open_score column: (1 - density_n) * (1 - height_n). -/
def open_score (height_n density_n : ℚ) : ℚ := (1 - density_n) * (1 - height_n)

/-- The scan of pandas idxmax over one row: the running best value is
replaced only by a strictly larger one, so the first maximum wins ties. -/
def idxmaxAux (best : ℚ × View) : List (ℚ × View) → ℚ × View
  | [] => best
  | p :: rest => idxmaxAux (if best.1 < p.1 then p else best) rest

/-- Classification of one sector: idxmax over the scores in the column order
green_score, water_score, city_score, open_score. -/
def viewOf (g w c o : ℚ) : View :=
  (idxmaxAux (g, View.GREEN) [(w, View.WATER), (c, View.CITY), (o, View.OPEN)]).2

/-- The view column of a whole run: each metric is normalized across the
sectors, the four scores are formed and the first maximum is selected. -/
def sectorViews (ms : List SectorMetrics) : List View :=
  let gn := normalize (ms.map (fun m => m.green))
  let wn := normalize (ms.map (fun m => m.water))
  let hn := normalize (ms.map (fun m => m.avg_height))
  let dn := normalize (ms.map (fun m => m.building))
  (List.zip (List.zip gn wn) (List.zip hn dn)).map
    (fun p => viewOf (green_score p.1.1) (water_score p.1.2)
      (city_score p.2.1 p.2.2) (open_score p.2.1 p.2.2))

/-- The classified sector rows handed to the merge loop. -/
def classifiedRows (ms : List SectorMetrics) : List Arc :=
  List.zipWith (fun (m : SectorMetrics) v => Arc.mk m.start m.stop v) ms (sectorViews ms)

/-- The body of the merge loop: extend the current arc while the
classification is unchanged, close it and restart on a change, and close the
final arc after the last row. -/
def mergeCore (cs ce : ℚ) (cv : View) : List Arc → List Arc
  | [] => [Arc.mk cs ce cv]
  | r :: rest =>
    if r.view = cv then mergeCore cs r.stop cv rest
    else Arc.mk cs ce cv :: mergeCore r.start r.stop r.view rest

/-- The merge loop started from the first row, as in the script. -/
def mergeRuns : List Arc → List Arc
  | [] => []
  | r :: rest => mergeCore r.start r.stop r.view rest

/-- Wraparound fusion: when the first and last arcs share a classification,
the first arc is rewritten in place to start at the start of the last arc
and the last entry is popped, exactly as in the script. -/
def wrapFuse (l : List Arc) : List Arc :=
  match l.head?, l.getLast? with
  | some h, some t =>
    if h.view = t.view then (l.set 0 (Arc.mk t.start h.stop h.view)).dropLast else l
  | _, _ => l

/-- The merged arc list of a run. -/
def merged (rows : List Arc) : List Arc := wrapFuse (mergeRuns rows)

/-- Scenario 1 of the spec: eighteen sectors of 20 degrees whose raw metrics
are identical across all sectors. -/
def scenario1 : List SectorMetrics :=
  [SectorMetrics.mk 0 20 (3 / 10) (1 / 5) (1 / 2) 45,
   SectorMetrics.mk 20 40 (3 / 10) (1 / 5) (1 / 2) 45,
   SectorMetrics.mk 40 60 (3 / 10) (1 / 5) (1 / 2) 45,
   SectorMetrics.mk 60 80 (3 / 10) (1 / 5) (1 / 2) 45,
   SectorMetrics.mk 80 100 (3 / 10) (1 / 5) (1 / 2) 45,
   SectorMetrics.mk 100 120 (3 / 10) (1 / 5) (1 / 2) 45,
   SectorMetrics.mk 120 140 (3 / 10) (1 / 5) (1 / 2) 45,
   SectorMetrics.mk 140 160 (3 / 10) (1 / 5) (1 / 2) 45,
   SectorMetrics.mk 160 180 (3 / 10) (1 / 5) (1 / 2) 45,
   SectorMetrics.mk 180 200 (3 / 10) (1 / 5) (1 / 2) 45,
   SectorMetrics.mk 200 220 (3 / 10) (1 / 5) (1 / 2) 45,
   SectorMetrics.mk 220 240 (3 / 10) (1 / 5) (1 / 2) 45,
   SectorMetrics.mk 240 260 (3 / 10) (1 / 5) (1 / 2) 45,
   SectorMetrics.mk 260 280 (3 / 10) (1 / 5) (1 / 2) 45,
   SectorMetrics.mk 280 300 (3 / 10) (1 / 5) (1 / 2) 45,
   SectorMetrics.mk 300 320 (3 / 10) (1 / 5) (1 / 2) 45,
   SectorMetrics.mk 320 340 (3 / 10) (1 / 5) (1 / 2) 45,
   SectorMetrics.mk 340 360 (3 / 10) (1 / 5) (1 / 2) 45]

/-- Every sector of scenario 1 classifies OPEN: identical raw metrics
normalize to zero in every column, so open_score is 1 and the others 0. -/
lemma scenario1_views : sectorViews scenario1 = List.replicate 18 View.OPEN := by
  norm_num [sectorViews, scenario1, normalize, seriesMin, seriesMax, viewOf, idxmaxAux,
    green_score, water_score, city_score, open_score, List.replicate]

/-- The classified rows of scenario 1. -/
lemma scenario1_rows : classifiedRows scenario1 =
    [Arc.mk 0 20 View.OPEN, Arc.mk 20 40 View.OPEN, Arc.mk 40 60 View.OPEN,
     Arc.mk 60 80 View.OPEN, Arc.mk 80 100 View.OPEN, Arc.mk 100 120 View.OPEN,
     Arc.mk 120 140 View.OPEN, Arc.mk 140 160 View.OPEN, Arc.mk 160 180 View.OPEN,
     Arc.mk 180 200 View.OPEN, Arc.mk 200 220 View.OPEN, Arc.mk 220 240 View.OPEN,
     Arc.mk 240 260 View.OPEN, Arc.mk 260 280 View.OPEN, Arc.mk 280 300 View.OPEN,
     Arc.mk 300 320 View.OPEN, Arc.mk 320 340 View.OPEN, Arc.mk 340 360 View.OPEN] := by
  simp only [classifiedRows, scenario1_views]
  simp [scenario1, List.replicate]

/-- On scenario 1 the merge loop produces the single run (0, 360, OPEN) and
the wraparound fusion then deletes it, returning no arcs. -/
lemma scenario1_merged : merged (classifiedRows scenario1) = [] := by
  rw [scenario1_rows]
  simp [merged, mergeRuns, mergeCore, wrapFuse]

/-- C1: with all raw metrics identical across the eighteen sectors every
sector classifies OPEN, as the spec says, but the merge then returns the
empty arc list instead of a single arc spanning 0 to 360: the wraparound
fusion fires on the lone full-circle run, rewrites it in place and pops it,
leaving no arcs at all. -/
theorem C1_all_open_merge_empty :
    sectorViews scenario1 = List.replicate 18 View.OPEN ∧
      merged (classifiedRows scenario1) = [] :=
  ⟨scenario1_views, scenario1_merged⟩

/-- The foldl computing a series minimum is bounded by its seed. -/
lemma foldl_min_le_init (t : List ℚ) : ∀ a : ℚ, t.foldl min a ≤ a := by
  induction t with
  | nil => intro a; exact le_refl a
  | cons h t ih => intro a; exact le_trans (ih (min a h)) (min_le_left a h)

/-- The foldl computing a series minimum is bounded by every list element. -/
lemma foldl_min_le_mem (t : List ℚ) : ∀ a x : ℚ, x ∈ t → t.foldl min a ≤ x := by
  induction t with
  | nil => intro a x hx; cases hx
  | cons h t ih =>
    intro a x hx
    rcases List.mem_cons.mp hx with rfl | hx
    · exact le_trans (foldl_min_le_init t (min a x)) (min_le_right a x)
    · exact ih (min a h) x hx

/-- The foldl computing a series maximum dominates its seed. -/
lemma init_le_foldl_max (t : List ℚ) : ∀ a : ℚ, a ≤ t.foldl max a := by
  induction t with
  | nil => intro a; exact le_refl a
  | cons h t ih => intro a; exact le_trans (le_max_left a h) (ih (max a h))

/-- The foldl computing a series maximum dominates every list element. -/
lemma mem_le_foldl_max (t : List ℚ) : ∀ a x : ℚ, x ∈ t → x ≤ t.foldl max a := by
  induction t with
  | nil => intro a x hx; cases hx
  | cons h t ih =>
    intro a x hx
    rcases List.mem_cons.mp hx with rfl | hx
    · exact le_trans (le_max_right a x) (init_le_foldl_max t (max a x))
    · exact ih (max a h) x hx

/-- seriesMin is a lower bound of the series. -/
lemma seriesMin_le {s : List ℚ} {x : ℚ} (hx : x ∈ s) : seriesMin s ≤ x := by
  cases s with
  | nil => cases hx
  | cons h t =>
    rcases List.mem_cons.mp hx with rfl | hx
    · exact foldl_min_le_init t x
    · exact foldl_min_le_mem t h x hx

/-- seriesMax is an upper bound of the series. -/
lemma le_seriesMax {s : List ℚ} {x : ℚ} (hx : x ∈ s) : x ≤ seriesMax s := by
  cases s with
  | nil => cases hx
  | cons h t =>
    rcases List.mem_cons.mp hx with rfl | hx
    · exact init_le_foldl_max t x
    · exact mem_le_foldl_max t h x hx

/-- A constant series has seriesMax equal to seriesMin. -/
lemma seriesMax_sub_seriesMin_eq_zero {s : List ℚ} {c : ℚ} (hc : ∀ x ∈ s, x = c) :
    seriesMax s - seriesMin s = 0 := by
  cases s with
  | nil => simp [seriesMax, seriesMin]
  | cons h t =>
    have hmem : h ∈ h :: t := List.mem_cons_self h t
    have h1 : seriesMin (h :: t) ≤ h := seriesMin_le hmem
    have h2 : h ≤ seriesMax (h :: t) := le_seriesMax hmem
    have hminmem : seriesMin (h :: t) = c := by
      have : t.foldl min h = h ∨ t.foldl min h ∈ t := by
        clear h1 h2 hmem hc
        induction t generalizing h with
        | nil => exact Or.inl rfl
        | cons y t ih =>
          rcases ih (min h y) with he | hm
          · rcases min_choice h y with h3 | h3
            · exact Or.inl (he.trans h3)
            · exact Or.inr (List.mem_cons.mpr (Or.inl (he.trans h3)))
          · exact Or.inr (List.mem_cons.mpr (Or.inr hm))
      rcases this with he | hm
      · simpa [seriesMin, he] using hc h hmem
      · simpa [seriesMin] using hc _ (List.mem_cons.mpr (Or.inr hm))
    have hmaxmem : seriesMax (h :: t) = c := by
      have : t.foldl max h = h ∨ t.foldl max h ∈ t := by
        clear h1 h2 hmem hc hminmem
        induction t generalizing h with
        | nil => exact Or.inl rfl
        | cons y t ih =>
          rcases ih (max h y) with he | hm
          · rcases max_choice h y with h3 | h3
            · exact Or.inl (he.trans h3)
            · exact Or.inr (List.mem_cons.mpr (Or.inl (he.trans h3)))
          · exact Or.inr (List.mem_cons.mpr (Or.inr hm))
      rcases this with he | hm
      · simpa [seriesMax, he] using hc h hmem
      · simpa [seriesMax] using hc _ (List.mem_cons.mpr (Or.inr hm))
    rw [hminmem, hmaxmem, sub_self]

/-- C3: min-max normalization keeps every value inside the unit interval,
and a series whose raw values all coincide normalizes to the all-zero
series via the multiply-by-zero branch, so no division by zero happens. -/
theorem C3_normalize_bounds (s : List ℚ) :
    (∀ y ∈ normalize s, 0 ≤ y ∧ y ≤ 1) ∧
      ((∃ c, ∀ x ∈ s, x = c) → ∀ y ∈ normalize s, y = 0) := by
  constructor
  · intro y hy
    by_cases hz : seriesMax s - seriesMin s = 0
    · rw [normalize, if_pos hz] at hy
      rcases List.mem_map.mp hy with ⟨x, _, rfl⟩
      norm_num
    · rw [normalize, if_neg hz] at hy
      rcases List.mem_map.mp hy with ⟨x, hx, rfl⟩
      have hlo : seriesMin s ≤ x := seriesMin_le hx
      have hhi : x ≤ seriesMax s := le_seriesMax hx
      have hpos : 0 < seriesMax s - seriesMin s := by
        rcases lt_or_eq_of_le (by linarith : (0 : ℚ) ≤ seriesMax s - seriesMin s) with h | h
        · exact h
        · exact absurd h.symm hz
      constructor
      · exact div_nonneg (by linarith) (le_of_lt hpos)
      · rw [div_le_one hpos]; linarith
  · rintro ⟨c, hc⟩ y hy
    rw [normalize, if_pos (seriesMax_sub_seriesMin_eq_zero hc)] at hy
    rcases List.mem_map.mp hy with ⟨x, _, rfl⟩
    exact mul_zero x

/-- Witness for C3 at the constant series [3, 3, 3]. -/
theorem C3_normalize_witness :
    (∃ c : ℚ, ∀ x ∈ [(3 : ℚ), 3, 3], x = c) ∧ ∀ y ∈ normalize [(3 : ℚ), 3, 3], y = 0 :=
  ⟨⟨3, by decide⟩, (C3_normalize_bounds [3, 3, 3]).2 ⟨3, by decide⟩⟩

/-- Full first-maximum characterization of the idxmax classification: each
category is chosen exactly when its score beats every earlier category
strictly and every later category weakly, in the column order green, water,
city, open. -/
lemma viewOf_iffs (g w c o : ℚ) :
    (viewOf g w c o = View.GREEN ↔ w ≤ g ∧ c ≤ g ∧ o ≤ g) ∧
    (viewOf g w c o = View.WATER ↔ g < w ∧ c ≤ w ∧ o ≤ w) ∧
    (viewOf g w c o = View.CITY ↔ g < c ∧ w < c ∧ o ≤ c) ∧
    (viewOf g w c o = View.OPEN ↔ g < o ∧ w < o ∧ c < o) := by
  rcases lt_or_le g w with h1 | h1
  · rcases lt_or_le w c with h2 | h2
    · rcases lt_or_le c o with h3 | h3
      · have e : viewOf g w c o = View.OPEN := by
          simp [viewOf, idxmaxAux, h1, h2, h3]
        rw [e]
        refine ⟨iff_of_false (by simp) ?_, iff_of_false (by simp) ?_,
          iff_of_false (by simp) ?_,
          iff_of_true rfl ⟨by linarith, by linarith, h3⟩⟩
        · rintro ⟨a, -, -⟩; linarith
        · rintro ⟨-, a, -⟩; linarith
        · rintro ⟨-, -, a⟩; linarith
      · have e : viewOf g w c o = View.CITY := by
          simp [viewOf, idxmaxAux, h1, h2, not_lt.mpr h3]
        rw [e]
        refine ⟨iff_of_false (by simp) ?_, iff_of_false (by simp) ?_,
          iff_of_true rfl ⟨by linarith, h2, h3⟩, iff_of_false (by simp) ?_⟩
        · rintro ⟨a, -, -⟩; linarith
        · rintro ⟨-, a, -⟩; linarith
        · rintro ⟨-, -, a⟩; linarith
    · rcases lt_or_le w o with h3 | h3
      · have e : viewOf g w c o = View.OPEN := by
          simp [viewOf, idxmaxAux, h1, not_lt.mpr h2, h3]
        rw [e]
        refine ⟨iff_of_false (by simp) ?_, iff_of_false (by simp) ?_,
          iff_of_false (by simp) ?_,
          iff_of_true rfl ⟨by linarith, h3, by linarith⟩⟩
        · rintro ⟨a, -, -⟩; linarith
        · rintro ⟨-, -, a⟩; linarith
        · rintro ⟨-, a, -⟩; linarith
      · have e : viewOf g w c o = View.WATER := by
          simp [viewOf, idxmaxAux, h1, not_lt.mpr h2, not_lt.mpr h3]
        rw [e]
        refine ⟨iff_of_false (by simp) ?_,
          iff_of_true rfl ⟨h1, h2, h3⟩,
          iff_of_false (by simp) ?_, iff_of_false (by simp) ?_⟩
        · rintro ⟨a, -, -⟩; linarith
        · rintro ⟨-, a, -⟩; linarith
        · rintro ⟨-, a, -⟩; linarith
  · rcases lt_or_le g c with h2 | h2
    · rcases lt_or_le c o with h3 | h3
      · have e : viewOf g w c o = View.OPEN := by
          simp [viewOf, idxmaxAux, not_lt.mpr h1, h2, h3]
        rw [e]
        refine ⟨iff_of_false (by simp) ?_, iff_of_false (by simp) ?_,
          iff_of_false (by simp) ?_,
          iff_of_true rfl ⟨by linarith, by linarith, h3⟩⟩
        · rintro ⟨-, a, -⟩; linarith
        · rintro ⟨a, -, -⟩; linarith
        · rintro ⟨-, -, a⟩; linarith
      · have e : viewOf g w c o = View.CITY := by
          simp [viewOf, idxmaxAux, not_lt.mpr h1, h2, not_lt.mpr h3]
        rw [e]
        refine ⟨iff_of_false (by simp) ?_, iff_of_false (by simp) ?_,
          iff_of_true rfl ⟨h2, by linarith, h3⟩, iff_of_false (by simp) ?_⟩
        · rintro ⟨-, a, -⟩; linarith
        · rintro ⟨a, -, -⟩; linarith
        · rintro ⟨-, -, a⟩; linarith
    · rcases lt_or_le g o with h3 | h3
      · have e : viewOf g w c o = View.OPEN := by
          simp [viewOf, idxmaxAux, not_lt.mpr h1, not_lt.mpr h2, h3]
        rw [e]
        refine ⟨iff_of_false (by simp) ?_, iff_of_false (by simp) ?_,
          iff_of_false (by simp) ?_,
          iff_of_true rfl ⟨h3, by linarith, by linarith⟩⟩
        · rintro ⟨-, -, a⟩; linarith
        · rintro ⟨a, -, -⟩; linarith
        · rintro ⟨a, -, -⟩; linarith
      · have e : viewOf g w c o = View.GREEN := by
          simp [viewOf, idxmaxAux, not_lt.mpr h1, not_lt.mpr h2, not_lt.mpr h3]
        rw [e]
        refine ⟨iff_of_true rfl ⟨h1, h2, h3⟩,
          iff_of_false (by simp) ?_, iff_of_false (by simp) ?_,
          iff_of_false (by simp) ?_⟩
        · rintro ⟨a, -, -⟩; linarith
        · rintro ⟨a, -, -⟩; linarith
        · rintro ⟨a, -, -⟩; linarith

/-- C4: over normalized inputs in the unit interval the classification is
total with value the first maximal score in the evaluation order green,
water, city, open: each category is selected exactly when its score exceeds
all earlier scores strictly and all later scores weakly. -/
theorem C4_first_max_classification (gn wn hn dn : ℚ)
    (hg0 : 0 ≤ gn) (hg1 : gn ≤ 1) (hw0 : 0 ≤ wn) (hw1 : wn ≤ 1)
    (hh0 : 0 ≤ hn) (hh1 : hn ≤ 1) (hd0 : 0 ≤ dn) (hd1 : dn ≤ 1) :
    (viewOf (green_score gn) (water_score wn) (city_score hn dn) (open_score hn dn) =
        View.GREEN ↔
      water_score wn ≤ green_score gn ∧ city_score hn dn ≤ green_score gn ∧
        open_score hn dn ≤ green_score gn) ∧
    (viewOf (green_score gn) (water_score wn) (city_score hn dn) (open_score hn dn) =
        View.WATER ↔
      green_score gn < water_score wn ∧ city_score hn dn ≤ water_score wn ∧
        open_score hn dn ≤ water_score wn) ∧
    (viewOf (green_score gn) (water_score wn) (city_score hn dn) (open_score hn dn) =
        View.CITY ↔
      green_score gn < city_score hn dn ∧ water_score wn < city_score hn dn ∧
        open_score hn dn ≤ city_score hn dn) ∧
    (viewOf (green_score gn) (water_score wn) (city_score hn dn) (open_score hn dn) =
        View.OPEN ↔
      green_score gn < open_score hn dn ∧ water_score wn < open_score hn dn ∧
        city_score hn dn < open_score hn dn) :=
  viewOf_iffs (green_score gn) (water_score wn) (city_score hn dn) (open_score hn dn)

/-- Witness for C4 at all-zero normalized inputs, where the open score is 1
and OPEN is selected. -/
theorem C4_first_max_witness :
    viewOf (green_score 0) (water_score 0) (city_score 0 0) (open_score 0 0) = View.OPEN ↔
      green_score 0 < open_score 0 0 ∧ water_score 0 < open_score 0 0 ∧
        city_score 0 0 < open_score 0 0 :=
  (C4_first_max_classification 0 0 0 0 (le_refl 0) (by norm_num) (le_refl 0) (by norm_num)
    (le_refl 0) (by norm_num) (le_refl 0) (by norm_num)).2.2.2

/-- The coverage ratio of one sector: the summed clipped feature areas
divided by the sector area, with a zero-area sector mapped to 0 by the
conditional expression guarding the division in the metric loop. -/
def sectorRatio (sector_area : ℚ) (clip_areas : List ℚ) : ℚ :=
  if sector_area = 0 then 0 else clip_areas.sum / sector_area

/-- C5 counterexample: two overlapping features, each individually clipped
to at most the sector area, sum to twice the sector area and give ratio 2,
outside the unit interval. -/
theorem C5_counterexample :
    (∀ a ∈ [(1 : ℚ), 1], 0 ≤ a ∧ a ≤ 1) ∧
      sectorRatio 1 [1, 1] = 2 ∧ ¬ sectorRatio 1 [1, 1] ≤ 1 := by
  refine ⟨by decide, ?_, ?_⟩
  · norm_num [sectorRatio]
  · norm_num [sectorRatio]

/-- C5 amended: the ratio is nonnegative and bounded by 1 whenever the
clipped areas are nonnegative and their total does not exceed the sector
area (as holds for pairwise disjoint features), and a zero-area sector
always yields ratio 0. -/
theorem C5_ratio_bounds (A : ℚ) (areas : List ℚ) (h0 : ∀ a ∈ areas, 0 ≤ a)
    (hsum : areas.sum ≤ A) :
    (0 ≤ sectorRatio A areas ∧ sectorRatio A areas ≤ 1) ∧
      (A = 0 → sectorRatio A areas = 0) := by
  have hs : 0 ≤ areas.sum := List.sum_nonneg h0
  by_cases hA : A = 0
  · rw [sectorRatio, if_pos hA]
    exact ⟨⟨le_refl 0, by norm_num⟩, fun _ => rfl⟩
  · have hApos : 0 < A := lt_of_le_of_ne (le_trans hs hsum) (Ne.symm hA)
    rw [sectorRatio, if_neg hA]
    refine ⟨⟨div_nonneg hs (le_of_lt hApos), ?_⟩, fun h => absurd h hA⟩
    rw [div_le_one hApos]
    exact hsum

/-- Witness for C5 at sector area 2 with disjoint clipped areas 1 and 1/2. -/
theorem C5_ratio_witness :
    (∀ a ∈ [(1 : ℚ), 1 / 2], 0 ≤ a) ∧ [(1 : ℚ), 1 / 2].sum ≤ 2 ∧
      0 ≤ sectorRatio 2 [1, 1 / 2] ∧ sectorRatio 2 [1, 1 / 2] ≤ 1 :=
  ⟨by norm_num, by norm_num,
    ((C5_ratio_bounds 2 [1, 1 / 2] (by norm_num) (by norm_num)).1.1),
    ((C5_ratio_bounds 2 [1, 1 / 2] (by norm_num) (by norm_num)).1.2)⟩

/-- Arcs forming an exact angular chain from a to b: each arc starts where
the previous one stopped and has positive width. -/
def chainSeg : ℚ → List Arc → ℚ → Prop
  | a, [], b => a = b
  | a, x :: xs, b => x.start = a ∧ x.start < x.stop ∧ chainSeg x.stop xs b

/-- Angular width of an arc, counting an arc whose stop lies numerically at
or below its start as wrapping once through 0/360. -/
def arcWidth (x : Arc) : ℚ :=
  if x.start < x.stop then x.stop - x.start else x.stop - x.start + 360

/-- Total angular width of an arc list. -/
def widthSum (l : List Arc) : ℚ := (l.map arcWidth).sum

/-- Two angle values name the same direction on the 360-degree circle. -/
def angEq (a b : ℚ) : Prop := ∃ k : ℤ, a - b = 360 * k

/-- Consecutive arcs meet: each stop equals the next start on the circle. -/
def linkedArcs : List Arc → Prop
  | [] => True
  | [_] => True
  | x :: y :: t => angEq x.stop y.start ∧ linkedArcs (y :: t)

/-- Start angle of the first arc. -/
def headStart (l : List Arc) : ℚ := (l.head?.map (fun x => x.start)).getD 0

/-- Stop angle of the last arc. -/
def lastStop (l : List Arc) : ℚ := (l.getLast?.map (fun x => x.stop)).getD 0

/-- The arc list tiles the full circle exactly once: it is nonempty, its
widths total 360 degrees, consecutive arcs meet with no gap or overlap, and
the last arc closes the ring back onto the first. -/
def tilesCircle (l : List Arc) : Prop :=
  l ≠ [] ∧ widthSum l = 360 ∧ linkedArcs l ∧ angEq (lastStop l) (headStart l)

/-- Total width of the input sector rows. -/
def sectorWidthSum (l : List Arc) : ℚ := (l.map (fun x => x.stop - x.start)).sum

/-- Adjacent entries carry different classifications. -/
def adjDiff : List Arc → Prop
  | [] => True
  | [_] => True
  | x :: y :: t => x.view ≠ y.view ∧ adjDiff (y :: t)

/-- The merge loop never returns an empty list. -/
lemma mergeCore_ne_nil :
    ∀ (rows : List Arc) (cs ce : ℚ) (cv : View), mergeCore cs ce cv rows ≠ [] := by
  intro rows
  induction rows with
  | nil => intro cs ce cv; simp [mergeCore]
  | cons r rest ih =>
    intro cs ce cv
    by_cases h : r.view = cv
    · simpa [mergeCore, h] using ih cs r.stop cv
    · simp [mergeCore, h]

/-- The first arc the merge loop emits starts at the accumulated start and
carries the accumulated classification. -/
lemma mergeCore_head :
    ∀ (rows : List Arc) (cs ce : ℚ) (cv : View),
      ∃ e t, mergeCore cs ce cv rows = Arc.mk cs e cv :: t := by
  intro rows
  induction rows with
  | nil => intro cs ce cv; exact ⟨ce, [], rfl⟩
  | cons r rest ih =>
    intro cs ce cv
    by_cases h : r.view = cv
    · obtain ⟨e, t, ht⟩ := ih cs r.stop cv
      exact ⟨e, t, by simp [mergeCore, h, ht]⟩
    · exact ⟨ce, mergeCore r.start r.stop r.view rest, by simp [mergeCore, h]⟩

/-- The merge loop maps a chain of rows to a chain of arcs with the same
endpoints. -/
lemma mergeCore_chainSeg :
    ∀ (rows : List Arc) (cs ce b : ℚ) (cv : View),
      cs < ce → chainSeg ce rows b → chainSeg cs (mergeCore cs ce cv rows) b := by
  intro rows
  induction rows with
  | nil =>
    intro cs ce b cv hlt hch
    exact ⟨rfl, hlt, hch⟩
  | cons r rest ih =>
    intro cs ce b cv hlt hch
    rw [chainSeg] at hch
    obtain ⟨h1, h2, h3⟩ := hch
    by_cases h : r.view = cv
    · simp only [mergeCore, if_pos h]
      exact ih cs r.stop b cv (lt_trans (h1 ▸ hlt) h2) h3
    · simp only [mergeCore, if_neg h]
      refine ⟨rfl, hlt, ?_⟩
      show chainSeg ce (mergeCore r.start r.stop r.view rest) b
      rw [← h1]
      exact ih r.start r.stop b r.view h2 h3

/-- Adjacent arcs the merge loop emits carry different classifications. -/
lemma mergeCore_adjDiff :
    ∀ (rows : List Arc) (cs ce : ℚ) (cv : View), adjDiff (mergeCore cs ce cv rows) := by
  intro rows
  induction rows with
  | nil => intro cs ce cv; simp [mergeCore, adjDiff]
  | cons r rest ih =>
    intro cs ce cv
    by_cases h : r.view = cv
    · simpa [mergeCore, h] using ih cs r.stop cv
    · obtain ⟨e, t, hhead⟩ := mergeCore_head rest r.start r.stop r.view
      have hd := ih r.start r.stop r.view
      rw [hhead] at hd
      simp only [mergeCore, if_neg h, hhead]
      exact ⟨fun hc => h hc.symm, hd⟩

/-- If the merge loop returns a single arc, every row shared the
accumulated classification. -/
lemma mergeCore_singleton :
    ∀ (rows : List Arc) (cs ce : ℚ) (cv : View) (x : Arc),
      mergeCore cs ce cv rows = [x] → ∀ r ∈ rows, r.view = cv := by
  intro rows
  induction rows with
  | nil => intro cs ce cv x _ r hr; cases hr
  | cons r rest ih =>
    intro cs ce cv x h s hs
    by_cases hv : r.view = cv
    · simp only [mergeCore, if_pos hv] at h
      rcases List.mem_cons.mp hs with rfl | hs
      · exact hv
      · exact ih cs r.stop cv x h s hs
    · simp only [mergeCore, if_neg hv] at h
      have h2 := (List.cons_eq_cons.mp h).2
      exact absurd h2 (mergeCore_ne_nil rest r.start r.stop r.view)

/-- A chain runs left to right. -/
lemma chainSeg_le : ∀ (l : List Arc) (a b : ℚ), chainSeg a l b → a ≤ b := by
  intro l
  induction l with
  | nil => intro a b h; rw [chainSeg] at h; exact le_of_eq h
  | cons x xs ih =>
    intro a b h
    rw [chainSeg] at h
    obtain ⟨h1, h2, h3⟩ := h
    have := ih x.stop b h3
    linarith [h1 ▸ h2]

/-- A nonempty chain runs strictly left to right. -/
lemma chainSeg_lt (x : Arc) (xs : List Arc) (a b : ℚ) (h : chainSeg a (x :: xs) b) :
    a < b := by
  rw [chainSeg] at h
  obtain ⟨h1, h2, h3⟩ := h
  have := chainSeg_le xs x.stop b h3
  linarith [h1 ▸ h2]

/-- The widths of a chain telescope to the distance between its endpoints. -/
lemma chainSeg_widthSum : ∀ (l : List Arc) (a b : ℚ), chainSeg a l b → widthSum l = b - a := by
  intro l
  induction l with
  | nil => intro a b h; rw [chainSeg] at h; simp [widthSum, h]
  | cons x xs ih =>
    intro a b h
    rw [chainSeg] at h
    obtain ⟨h1, h2, h3⟩ := h
    have hxs := ih x.stop b h3
    simp only [widthSum, List.map_cons, List.sum_cons] at hxs ⊢
    rw [arcWidth, if_pos h2, hxs, h1]
    ring

/-- Consecutive arcs of a chain meet exactly. -/
lemma chainSeg_linked : ∀ (l : List Arc) (a b : ℚ), chainSeg a l b → linkedArcs l := by
  intro l
  induction l with
  | nil => intro a b _; trivial
  | cons x xs ih =>
    intro a b h
    rw [chainSeg] at h
    obtain ⟨h1, h2, h3⟩ := h
    cases xs with
    | nil => trivial
    | cons y ys =>
      have hy : y.start = x.stop := by
        rw [chainSeg] at h3
        exact h3.1
      exact ⟨⟨0, by rw [hy]; ring⟩, ih x.stop b h3⟩

/-- The last arc of a nonempty chain stops at the chain's right endpoint. -/
lemma chainSeg_lastStop :
    ∀ (l : List Arc) (a b : ℚ), chainSeg a l b → l ≠ [] → lastStop l = b := by
  intro l
  induction l with
  | nil => intro a b _ h; exact absurd rfl h
  | cons x xs ih =>
    intro a b h _
    rw [chainSeg] at h
    obtain ⟨h1, h2, h3⟩ := h
    cases xs with
    | nil =>
      rw [chainSeg] at h3
      simp [lastStop, h3]
    | cons y ys =>
      have := ih x.stop b h3 (by simp)
      simpa [lastStop, List.getLast?_cons_cons] using this

/-- Splitting a chain at a final singleton. -/
lemma chainSeg_concat_decomp :
    ∀ (mid : List Arc) (a b : ℚ) (bl : Arc),
      chainSeg a (mid ++ [bl]) b →
        chainSeg a mid bl.start ∧ bl.start < bl.stop ∧ bl.stop = b := by
  intro mid
  induction mid with
  | nil =>
    intro a b bl h
    simp only [List.nil_append] at h
    rw [chainSeg] at h
    obtain ⟨h1, h2, h3⟩ := h
    rw [chainSeg] at h3
    exact ⟨h1.symm, h2, h3⟩
  | cons x mid ih =>
    intro a b bl h
    simp only [List.cons_append] at h
    rw [chainSeg] at h
    obtain ⟨h1, h2, h3⟩ := h
    obtain ⟨hc, hlt, hstop⟩ := ih x.stop b bl h3
    exact ⟨by rw [chainSeg]; exact ⟨h1, h2, hc⟩, hlt, hstop⟩

/-- Wraparound fusion on a list decomposed as first element, middle and last
element: the source's in-place rewrite of entry 0 followed by a pop. -/
lemma wrapFuse_concat (b0 bl : Arc) (mid : List Arc) :
    wrapFuse (b0 :: (mid ++ [bl])) =
      if b0.view = bl.view then Arc.mk bl.start b0.stop b0.view :: mid
      else b0 :: (mid ++ [bl]) := by
  have hl : (b0 :: (mid ++ [bl])).getLast? = some bl := by
    rw [← List.cons_append]
    exact List.getLast?_concat _
  simp only [wrapFuse, List.head?_cons, hl]
  by_cases h : b0.view = bl.view
  · rw [if_pos h, if_pos h, List.set_cons_zero, ← List.cons_append, List.dropLast_concat]
  · rw [if_neg h, if_neg h]

/-- Any run of the merge loop over a nonempty 0-to-360 chain of classified
rows, followed by wraparound fusion, tiles the circle, provided not every
row carries the classification of the first row. -/
lemma merged_tiles_of_chain (r0 : Arc) (rest : List Arc)
    (hchain : chainSeg 0 (r0 :: rest) 360)
    (hnall : ¬ ∀ r ∈ r0 :: rest, r.view = r0.view) :
    tilesCircle (merged (r0 :: rest)) := by
  rw [chainSeg] at hchain
  obtain ⟨h0, hlt0, hrest⟩ := hchain
  have hB : merged (r0 :: rest) = wrapFuse (mergeCore r0.start r0.stop r0.view rest) := rfl
  have hBchain : chainSeg 0 (mergeCore r0.start r0.stop r0.view rest) 360 := by
    have h := mergeCore_chainSeg rest r0.start r0.stop 360 r0.view hlt0 hrest
    nth_rewrite 1 [h0] at h
    exact h
  obtain ⟨e, t, hBeq⟩ := mergeCore_head rest r0.start r0.stop r0.view
  rcases List.eq_nil_or_concat t with rfl | ⟨mid, bl, rfl⟩
  · exfalso
    apply hnall
    intro r hr
    rcases List.mem_cons.mp hr with rfl | hr
    · rfl
    · exact mergeCore_singleton rest r0.start r0.stop r0.view _ hBeq r hr
  · rw [List.concat_eq_append] at hBeq
    set b0 : Arc := Arc.mk r0.start e r0.view with hb0
    rw [hBeq] at hBchain
    rw [chainSeg] at hBchain
    obtain ⟨hb0start, hb0lt, hmidbl⟩ := hBchain
    obtain ⟨hmidchain, hbllt, hblstop⟩ := chainSeg_concat_decomp mid b0.stop 360 bl hmidbl
    have hadj := mergeCore_adjDiff rest r0.start r0.stop r0.view
    rw [hBeq] at hadj
    rw [hB, hBeq, wrapFuse_concat]
    by_cases hv : b0.view = bl.view
    · rw [if_pos hv]
      have hmidne : mid ≠ [] := by
        intro hmid
        subst hmid
        simp only [List.nil_append] at hadj
        rw [adjDiff] at hadj
        exact hadj.1 hv
      obtain ⟨m0, mid2, rfl⟩ : ∃ m0 mid2, mid = m0 :: mid2 := by
        cases mid with
        | nil => exact absurd rfl hmidne
        | cons m0 mid2 => exact ⟨m0, mid2, rfl⟩
      have hstrict : b0.stop < bl.start := chainSeg_lt m0 mid2 b0.stop bl.start hmidchain
      have hm0start : m0.start = b0.stop := by
        rw [chainSeg] at hmidchain
        exact hmidchain.1
      refine ⟨by simp, ?_, ?_, ?_⟩
      · have hmid : widthSum (m0 :: mid2) = bl.start - b0.stop :=
          chainSeg_widthSum (m0 :: mid2) b0.stop bl.start hmidchain
        have hw : arcWidth (Arc.mk bl.start b0.stop b0.view) =
            b0.stop - bl.start + 360 := by
          rw [arcWidth, if_neg (not_lt.mpr (le_of_lt hstrict))]
        simp only [widthSum, List.map_cons, List.sum_cons] at hmid ⊢
        rw [hw]
        linarith
      · exact ⟨⟨0, by rw [hm0start]; push_cast; ring⟩,
          chainSeg_linked (m0 :: mid2) b0.stop bl.start hmidchain⟩
      · have hlast : lastStop (Arc.mk bl.start b0.stop b0.view :: m0 :: mid2) =
            lastStop (m0 :: mid2) := by
          simp [lastStop, List.getLast?_cons_cons]
        rw [hlast, chainSeg_lastStop (m0 :: mid2) b0.stop bl.start hmidchain (by simp)]
        refine ⟨0, ?_⟩
        simp only [headStart, List.head?_cons, Option.map_some', Option.getD_some]
        push_cast
        ring
    · rw [if_neg hv]
      have hchainB : chainSeg 0 (b0 :: (mid ++ [bl])) 360 := by
        rw [chainSeg]
        exact ⟨hb0start, hb0lt, hmidbl⟩
      refine ⟨by simp, ?_, chainSeg_linked _ 0 360 hchainB, ?_⟩
      · rw [chainSeg_widthSum _ 0 360 hchainB]
        ring
      · rw [chainSeg_lastStop _ 0 360 hchainB (by simp)]
        simp only [headStart, List.head?_cons, Option.map_some', Option.getD_some]
        rw [hb0start]
        refine ⟨1, ?_⟩
        push_cast
        ring

/-- The equal-width sector rows the metric loop walks in increasing angle
order: n sectors of width W starting at angle W*i, with an arbitrary
classification for each index. -/
def mkSectors (W : ℚ) (v : ℕ → View) : ℕ → ℕ → List Arc
  | _, 0 => []
  | i, n + 1 => Arc.mk (W * (i : ℚ)) (W * ((i : ℚ) + 1)) (v i) :: mkSectors W v (i + 1) n

/-- Equal-width sector rows form a chain. -/
lemma mkSectors_chain (W : ℚ) (hW : 0 < W) (v : ℕ → View) :
    ∀ (n i : ℕ), chainSeg (W * (i : ℚ)) (mkSectors W v i n) (W * ((i : ℚ) + (n : ℚ))) := by
  intro n
  induction n with
  | zero =>
    intro i
    simp only [mkSectors, chainSeg]
    norm_num
  | succ n ih =>
    intro i
    simp only [mkSectors, chainSeg]
    refine ⟨by simp, by nlinarith, ?_⟩
    have := ih (i + 1)
    have hc1 : ((i + 1 : ℕ) : ℚ) = (i : ℚ) + 1 := by push_cast; ring
    rw [hc1] at this
    have hc2 : W * ((i : ℚ) + 1 + (n : ℚ)) = W * ((i : ℚ) + ((n : ℚ) + 1)) := by ring
    rw [hc2] at this
    have hc3 : ((n + 1 : ℕ) : ℚ) = (n : ℚ) + 1 := by push_cast; ring
    rw [hc3]
    exact this

/-- If every generated sector row carries classification c, then so does
every index of the assignment within range. -/
lemma mkSectors_forall_view (W : ℚ) (v : ℕ → View) :
    ∀ (n i : ℕ) (c : View),
      (∀ r ∈ mkSectors W v i n, r.view = c) → ∀ j, j < n → v (i + j) = c := by
  intro n
  induction n with
  | zero => intro i c _ j hj; exact absurd hj (Nat.not_lt_zero j)
  | succ n ih =>
    intro i c h j hj
    cases j with
    | zero => simpa using h _ (List.mem_cons_self _ _)
    | succ j =>
      have := ih (i + 1) c (fun r hr => h r (List.mem_cons_of_mem _ hr)) j (by omega)
      have harith : i + (j + 1) = i + 1 + j := by omega
      rw [harith]
      exact this

/-- The generated sector widths total W times the sector count. -/
lemma mkSectors_sectorWidthSum (W : ℚ) (v : ℕ → View) :
    ∀ (n i : ℕ), sectorWidthSum (mkSectors W v i n) = W * (n : ℚ) := by
  intro n
  induction n with
  | zero => intro i; simp [mkSectors, sectorWidthSum]
  | succ n ih =>
    intro i
    simp only [mkSectors, sectorWidthSum, List.map_cons, List.sum_cons]
    have := ih (i + 1)
    simp only [sectorWidthSum] at this
    rw [this]
    push_cast
    ring

/-- C2 amended: walking any equal-width sector partition of the circle in
increasing angle order, the input widths total exactly 360 degrees, and
provided not every sector received the same classification the merged arcs
tile the full circle exactly once with no gaps and no overlaps. -/
theorem C2_merge_tiles_circle (W : ℚ) (n : ℕ) (v : ℕ → View) (hW : 0 < W) (hn : 0 < n)
    (h360 : W * (n : ℚ) = 360) (hv : ¬ ∀ i, i < n → v i = v 0) :
    sectorWidthSum (mkSectors W v 0 n) = 360 ∧ tilesCircle (merged (mkSectors W v 0 n)) := by
  constructor
  · rw [mkSectors_sectorWidthSum]
    exact h360
  · obtain ⟨m, rfl⟩ : ∃ m, n = m + 1 := ⟨n - 1, by omega⟩
    have hrows : mkSectors W v 0 (m + 1) =
        Arc.mk (W * ((0 : ℕ) : ℚ)) (W * (((0 : ℕ) : ℚ) + 1)) (v 0) ::
          mkSectors W v 1 m := rfl
    have hchain : chainSeg 0 (mkSectors W v 0 (m + 1)) 360 := by
      have := mkSectors_chain W hW v (m + 1) 0
      have hz : (W * ((0 : ℕ) : ℚ)) = 0 := by norm_num
      have he : W * (((0 : ℕ) : ℚ) + ((m + 1 : ℕ) : ℚ)) = 360 := by
        rw [← h360]
        push_cast
        ring
      rwa [hz, he] at this
    rw [hrows] at hchain ⊢
    apply merged_tiles_of_chain _ _ hchain
    intro hall
    apply hv
    intro i hi
    have := mkSectors_forall_view W v (m + 1) 0 (v 0) (by
      intro r hr
      rw [hrows] at hr
      exact hall r hr) i hi
    simpa using this

/-- Witness for C2 on a two-sector partition with distinct classifications. -/
theorem C2_merge_tiles_witness :
    sectorWidthSum (mkSectors 180 (fun i => if i = 0 then View.GREEN else View.WATER) 0 2) =
        360 ∧
      tilesCircle
        (merged (mkSectors 180 (fun i => if i = 0 then View.GREEN else View.WATER) 0 2)) :=
  C2_merge_tiles_circle 180 2 (fun i => if i = 0 then View.GREEN else View.WATER)
    (by norm_num) (by norm_num) (by norm_num)
    (by
      intro h
      have h1 := h 1 (by omega)
      simp at h1)

/-- C2 counterexample: on the all-identical-metrics run of scenario 1 the
merged output is the empty list, which does not tile the circle, so the
claimed invariant fails for that run. -/
theorem C2_counterexample :
    merged (classifiedRows scenario1) = [] ∧
      ¬ tilesCircle (merged (classifiedRows scenario1)) := by
  refine ⟨scenario1_merged, ?_⟩
  rw [scenario1_merged]
  intro h
  exact h.1 rfl

/-- Base-10 logarithm, the np.log10 of the script. -/
noncomputable def log10 (x : ℝ) : ℝ := Real.logb 10 x

/-- The traffic_emission function of the Road Traffic Noise Impact script:
light and heavy sub-stream levels combined in the energy domain. -/
noncomputable def traffic_emission (flow heavy_pct speed : ℝ) : ℝ :=
  let L_light := 27.7 + 10 * log10 (flow * (1 - heavy_pct)) + 0.02 * speed
  let L_heavy := 23.1 + 10 * log10 (flow * heavy_pct) + 0.08 * speed
  let energy := (10 : ℝ) ^ (L_light / 10) + (10 : ℝ) ^ (L_heavy / 10)
  10 * log10 energy

/-- The source level formula written in the spec, stated verbatim for the
refinement comparison: L_source = 10*log10(10^(L_light/10) + 10^(L_heavy/10))
with L_light = 27.7 + 10*log10(flow*(1-heavy_frac)) + 0.02*speed and
L_heavy = 23.1 + 10*log10(flow*heavy_frac) + 0.08*speed. -/
noncomputable def L_source_spec (flow heavy_frac speed : ℝ) : ℝ :=
  10 * log10 ((10 : ℝ) ^ ((27.7 + 10 * log10 (flow * (1 - heavy_frac)) + 0.02 * speed) / 10)
    + (10 : ℝ) ^ ((23.1 + 10 * log10 (flow * heavy_frac) + 0.08 * speed) / 10))

/-- The scenario value rewritten with clean exponents. -/
lemma te_scenario_eq : traffic_emission 1200 (12 / 100) 40 =
    10 * log10 ((10 : ℝ) ^ ((2.85 : ℝ) + log10 1056) +
      (10 : ℝ) ^ ((2.63 : ℝ) + log10 144)) := by
  have h1 : (1200 : ℝ) * (1 - 12 / 100) = 1056 := by norm_num
  have h2 : (1200 : ℝ) * (12 / 100) = 144 := by norm_num
  simp only [traffic_emission, h1, h2]
  have h3 : (27.7 + 10 * log10 1056 + 0.02 * 40) / 10 = (2.85 : ℝ) + log10 1056 := by
    ring
  have h4 : (23.1 + 10 * log10 144 + 0.08 * 40) / 10 = (2.63 : ℝ) + log10 144 := by
    ring
  rw [h3, h4]

/-- Splitting a power at a log exponent. -/
lemma rpow_add_log10 (c x : ℝ) (hx : 0 < x) :
    (10 : ℝ) ^ (c + log10 x) = (10 : ℝ) ^ c * x := by
  rw [Real.rpow_add (by norm_num : (0 : ℝ) < 10), log10,
    Real.rpow_logb (by norm_num) (by norm_num) hx]

/-- Upper bound of the scenario source level: strictly below 62 dB. -/
lemma te_scenario_upper : traffic_emission 1200 (12 / 100) 40 < 62 := by
  rw [te_scenario_eq]
  have e1 := rpow_add_log10 (2.85 : ℝ) 1056 (by norm_num)
  have e2 := rpow_add_log10 (2.63 : ℝ) 144 (by norm_num)
  have h1000 : (10 : ℝ) ^ (3 : ℝ) = 1000 := by
    rw [show (3 : ℝ) = ((3 : ℕ) : ℝ) by norm_num, Real.rpow_natCast]
    norm_num
  have b1 : (10 : ℝ) ^ (2.85 : ℝ) < 1000 := by
    have := (Real.rpow_lt_rpow_left_iff (by norm_num : (1 : ℝ) < 10)).mpr
      (by norm_num : (2.85 : ℝ) < 3)
    rwa [h1000] at this
  have b2 : (10 : ℝ) ^ (2.63 : ℝ) < 1000 := by
    have := (Real.rpow_lt_rpow_left_iff (by norm_num : (1 : ℝ) < 10)).mpr
      (by norm_num : (2.63 : ℝ) < 3)
    rwa [h1000] at this
  have hE : (10 : ℝ) ^ ((2.85 : ℝ) + log10 1056) + (10 : ℝ) ^ ((2.63 : ℝ) + log10 144) <
      1200000 := by
    rw [e1, e2]
    nlinarith [b1, b2]
  have hbig : (1200000 : ℝ) < (10 : ℝ) ^ (6.2 : ℝ) := by
    have hpow : ((10 : ℝ) ^ (6.2 : ℝ)) ^ (5 : ℕ) = (10 : ℝ) ^ (31 : ℕ) := by
      rw [← Real.rpow_natCast ((10 : ℝ) ^ (6.2 : ℝ)) 5,
        ← Real.rpow_mul (by norm_num : (0 : ℝ) ≤ 10),
        show (6.2 : ℝ) * ((5 : ℕ) : ℝ) = ((31 : ℕ) : ℝ) by norm_num,
        Real.rpow_natCast]
    refine lt_of_pow_lt_pow_left₀ 5 (le_of_lt (Real.rpow_pos_of_pos (by norm_num) _)) ?_
    rw [hpow]
    norm_num
  have hEpos : (0 : ℝ) <
      (10 : ℝ) ^ ((2.85 : ℝ) + log10 1056) + (10 : ℝ) ^ ((2.63 : ℝ) + log10 144) := by
    positivity
  have hlog : log10 ((10 : ℝ) ^ ((2.85 : ℝ) + log10 1056) +
      (10 : ℝ) ^ ((2.63 : ℝ) + log10 144)) < 6.2 := by
    have h62 : log10 ((10 : ℝ) ^ (6.2 : ℝ)) = 6.2 :=
      Real.logb_rpow (by norm_num) (by norm_num)
    have := Real.logb_lt_logb (by norm_num : (1 : ℝ) < 10) hEpos (lt_trans hE hbig)
    rw [← log10, ← log10, h62] at this
    exact this
  linarith

/-- Lower bound of the scenario source level: strictly above 58 dB. -/
lemma te_scenario_lower : 58 < traffic_emission 1200 (12 / 100) 40 := by
  rw [te_scenario_eq]
  have e1 := rpow_add_log10 (2.85 : ℝ) 1056 (by norm_num)
  have h585 : (10 : ℝ) ^ (5.85 : ℝ) = (10 : ℝ) ^ (2.85 : ℝ) * 1000 := by
    have h1000 : (10 : ℝ) ^ (3 : ℝ) = 1000 := by
      rw [show (3 : ℝ) = ((3 : ℕ) : ℝ) by norm_num, Real.rpow_natCast]
      norm_num
    rw [show (5.85 : ℝ) = (2.85 : ℝ) + 3 by norm_num,
      Real.rpow_add (by norm_num : (0 : ℝ) < 10), h1000]
  have hplow : (10 : ℝ) ^ (5.85 : ℝ) <
      (10 : ℝ) ^ ((2.85 : ℝ) + log10 1056) + (10 : ℝ) ^ ((2.63 : ℝ) + log10 144) := by
    have hp1 : (0 : ℝ) < (10 : ℝ) ^ (2.85 : ℝ) := Real.rpow_pos_of_pos (by norm_num) _
    have hp2 : (0 : ℝ) < (10 : ℝ) ^ ((2.63 : ℝ) + log10 144) :=
      Real.rpow_pos_of_pos (by norm_num) _
    rw [h585, e1]
    nlinarith [hp1, hp2]
  have hEpos : (0 : ℝ) < (10 : ℝ) ^ (5.85 : ℝ) := Real.rpow_pos_of_pos (by norm_num) _
  have hlog : (5.85 : ℝ) < log10 ((10 : ℝ) ^ ((2.85 : ℝ) + log10 1056) +
      (10 : ℝ) ^ ((2.63 : ℝ) + log10 144)) := by
    have h585l : log10 ((10 : ℝ) ^ (5.85 : ℝ)) = 5.85 :=
      Real.logb_rpow (by norm_num) (by norm_num)
    have := Real.logb_lt_logb (by norm_num : (1 : ℝ) < 10) hEpos hplow
    rw [← log10, ← log10, h585l] at this
    exact this
  linarith

/-- C6 amended: the implemented traffic_emission agrees exactly with the
source level formula of the spec for all positive flow, heavy fraction in
(0,1) and any speed; at flow 1200, heavy fraction 0.12 and speed 40 its
exact value lies strictly between 58 and 62 dB, not in the 76 to 78 dB
range the spec quotes. -/
theorem C6_traffic_emission_formula (flow heavy speed : ℝ)
    (hf : 0 < flow) (h0 : 0 < heavy) (h1 : heavy < 1) :
    traffic_emission flow heavy speed = L_source_spec flow heavy speed ∧
      58 < traffic_emission 1200 (12 / 100) 40 ∧
        traffic_emission 1200 (12 / 100) 40 < 62 :=
  ⟨rfl, te_scenario_lower, te_scenario_upper⟩

/-- Witness for C6 at the scenario parameters. -/
theorem C6_traffic_emission_witness :
    traffic_emission 1200 (12 / 100) 40 = L_source_spec 1200 (12 / 100) 40 ∧
      58 < traffic_emission 1200 (12 / 100) 40 ∧
        traffic_emission 1200 (12 / 100) 40 < 62 :=
  C6_traffic_emission_formula 1200 (12 / 100) 40 (by norm_num) (by norm_num) (by norm_num)

/-- C6 counterexample: the scenario value is below 62 dB, hence not in the
76 to 78 dB range asserted by the spec. -/
theorem C6_counterexample :
    ¬ (76 ≤ traffic_emission 1200 (12 / 100) 40 ∧
        traffic_emission 1200 (12 / 100) 40 ≤ 78) :=
  fun h => absurd h.1 (not_le.mpr (lt_trans te_scenario_upper (by norm_num)))

/-- Barrier attenuation of the propagation loop: 8 dB when the line of
sight from the road line centroid to the receiver crosses the site polygon
buffered by 5 m, else 0.  The Boolean blocked stands for that geometric
intersects test. -/
def A_barrier (blocked : Bool) : ℝ := if blocked then 8 else 0

/-- The per-source level at one grid point: source level minus divergence,
ground and barrier attenuations plus the constant -2 dB reflection
correction, with d the point-to-line distance. -/
noncomputable def pointLevel (L_source ground d : ℝ) (blocked : Bool) : ℝ :=
  let A_div := 20 * log10 (d + 1)
  let A_ground := ground * 5 * log10 (d + 1)
  let A_reflect : ℝ := -2
  L_source - A_div - A_ground - A_barrier blocked + A_reflect

/-- C7: the barrier attenuation is 8 dB exactly when the line-of-sight test
fires and 0 otherwise, and the per-source level at a grid point is the
source level minus divergence, ground and barrier terms plus the constant
-2 dB reflection correction. -/
theorem C7_barrier_and_level (L_source ground d : ℝ) (blocked : Bool) :
    (A_barrier blocked = 8 ↔ blocked = true) ∧
    (A_barrier blocked = 0 ↔ blocked = false) ∧
    pointLevel L_source ground d blocked =
      L_source - 20 * log10 (d + 1) - ground * 5 * log10 (d + 1) -
        A_barrier blocked + (-2) := by
  cases blocked <;> refine ⟨?_, ?_, rfl⟩ <;> simp [A_barrier]

/-- One road line as seen from one grid point: its distance to the point
and whether the line of sight is blocked. -/
structure RoadPt where
  d : ℝ
  blocked : Bool

/-- Accumulated acoustic energy at a grid point: each road line contributes
10 to the power of a tenth of its level, summed in the linear domain. -/
noncomputable def noise_energy (L_source ground : ℝ) (roads : List RoadPt) : ℝ :=
  (roads.map (fun r => (10 : ℝ) ^ (pointLevel L_source ground r.d r.blocked / 10))).sum

/-- The final reported level at a grid point: the energy total put back on
the decibel scale over an epsilon floor of 1e-9. -/
noncomputable def noise (L_source ground : ℝ) (roads : List RoadPt) : ℝ :=
  10 * log10 (noise_energy L_source ground roads + 1e-9)

/-- C8: with no road segments the accumulated energy stays zero, every grid
cell reports the constant 10*log10(1e-9), and the argument of the final
logarithm is positive, never zero. -/
theorem C8_empty_roads (L_source ground : ℝ) :
    noise L_source ground [] = 10 * log10 (1e-9) ∧
      (0 : ℝ) < noise_energy L_source ground [] + 1e-9 := by
  constructor
  · simp [noise, noise_energy]
  · simp only [noise_energy, List.map_nil, List.sum_nil]
    norm_num

/-- One candidate returned by the lot search endpoint: its ranking score
and its coordinates in the local planar system. -/
structure Candidate where
  score : ℚ
  x : ℚ
  y : ℚ
deriving DecidableEq

/-- The body of a parsed JSON response: either the candidates key is
missing or it holds a list of candidates. -/
inductive RespBody where
  | missingCandidates : RespBody
  | candidates : List Candidate → RespBody

/-- The outcome of the blocking HTTP request: a raised network error or a
response with a status code and a body. -/
inductive HttpResult where
  | netError : HttpResult
  | response : ℕ → RespBody → HttpResult

/-- The scan of the Python max with a score key: the running best candidate
is replaced only by a strictly higher score, so the first maximum wins. -/
def bestCandidate (c : Candidate) : List Candidate → Candidate
  | [] => c
  | d :: rest => bestCandidate (if c.score < d.score then d else c) rest

/-- The resolve_query function of the Driving Distance Analysis script:
every failure path inside the try block, a non-200 status, a missing or
empty candidates list, or any raised error, returns None; on success the
highest-scoring candidate coordinates are transformed and returned.  The
transform argument stands for the CRS transformation applied to the best
candidate coordinates. -/
def resolve_query (r : HttpResult) (transform : ℚ × ℚ → ℚ × ℚ) : Option (ℚ × ℚ) :=
  match r with
  | .netError => none
  | .response status body =>
    if status ≠ 200 then none
    else
      match body with
      | .missingCandidates => none
      | .candidates [] => none
      | .candidates (c :: rest) =>
        some (transform ((bestCandidate c rest).x, (bestCandidate c rest).y))

/-- Failure modes of the resolve_lot function: these model raised
exceptions, not returned values. -/
inductive LotFailure where
  | network : LotFailure
  | badStatus : LotFailure
  | noCandidates : LotFailure
deriving DecidableEq

/-- The resolve_lot function of the noise script: no try/except guards it,
so a network error propagates, raise_for_status throws on an error status
(4xx/5xx), and max over a missing or empty candidates list throws; the
error branches model those exceptions reaching the caller. -/
def resolve_lot (r : HttpResult) : Except LotFailure (ℚ × ℚ) :=
  match r with
  | .netError => .error .network
  | .response status body =>
    if 400 ≤ status then .error .badStatus
    else
      match body with
      | .missingCandidates => .error .noCandidates
      | .candidates [] => .error .noCandidates
      | .candidates (c :: rest) => .ok ((bestCandidate c rest).x, (bestCandidate c rest).y)

/-- The scan keeps a candidate whose score dominates the seed and every
scanned candidate. -/
lemma bestCandidate_score_le :
    ∀ (rest : List Candidate) (c : Candidate),
      c.score ≤ (bestCandidate c rest).score ∧
        ∀ x ∈ rest, x.score ≤ (bestCandidate c rest).score := by
  intro rest
  induction rest with
  | nil => intro c; exact ⟨le_refl _, fun x hx => absurd hx (List.not_mem_nil x)⟩
  | cons d rest ih =>
    intro c
    by_cases h : c.score < d.score
    · have := ih d
      simp only [bestCandidate, if_pos h]
      refine ⟨le_trans (le_of_lt h) (ih d).1, fun x hx => ?_⟩
      rcases List.mem_cons.mp hx with rfl | hx
      · exact (ih x).1
      · exact (ih d).2 x hx
    · simp only [bestCandidate, if_neg h]
      refine ⟨(ih c).1, fun x hx => ?_⟩
      rcases List.mem_cons.mp hx with rfl | hx
      · exact le_trans (not_lt.mp h) (ih c).1
      · exact (ih c).2 x hx

/-- The scan returns one of the candidates. -/
lemma bestCandidate_mem :
    ∀ (rest : List Candidate) (c : Candidate), bestCandidate c rest ∈ c :: rest := by
  intro rest
  induction rest with
  | nil => intro c; exact List.mem_cons_self c []
  | cons d rest ih =>
    intro c
    by_cases h : c.score < d.score
    · simp only [bestCandidate, if_pos h]
      rcases List.mem_cons.mp (ih d) with he | hm
      · rw [he]
        exact List.mem_cons.mpr (Or.inr (List.mem_cons_self d rest))
      · exact List.mem_cons.mpr (Or.inr (List.mem_cons.mpr (Or.inr hm)))
    · simp only [bestCandidate, if_neg h]
      rcases List.mem_cons.mp (ih c) with he | hm
      · rw [he]
        exact List.mem_cons_self c (d :: rest)
      · exact List.mem_cons.mpr (Or.inr (List.mem_cons.mpr (Or.inr hm)))

/-- C9 amended: resolve_query surfaces every failure, network error,
non-200 status, missing or empty candidate list, as None without retrying,
and on success returns the transformed coordinates of a highest-scoring
candidate; resolve_lot instead propagates the corresponding failures as
raised exceptions rather than returning an absent value. -/
theorem C9_resolution_behaviour (t : ℚ × ℚ → ℚ × ℚ) (status : ℕ) (body : RespBody)
    (c : Candidate) (rest : List Candidate) (s2 : ℕ) (b2 : RespBody)
    (hs : status ≠ 200) (hs2 : 400 ≤ s2) :
    resolve_query HttpResult.netError t = none ∧
    resolve_query (HttpResult.response status body) t = none ∧
    resolve_query (HttpResult.response 200 RespBody.missingCandidates) t = none ∧
    resolve_query (HttpResult.response 200 (RespBody.candidates [])) t = none ∧
    (resolve_query (HttpResult.response 200 (RespBody.candidates (c :: rest))) t =
        some (t ((bestCandidate c rest).x, (bestCandidate c rest).y)) ∧
      bestCandidate c rest ∈ c :: rest ∧
      ∀ x ∈ c :: rest, x.score ≤ (bestCandidate c rest).score) ∧
    resolve_lot HttpResult.netError = Except.error LotFailure.network ∧
    resolve_lot (HttpResult.response s2 b2) = Except.error LotFailure.badStatus ∧
    resolve_lot (HttpResult.response 200 (RespBody.candidates [])) =
      Except.error LotFailure.noCandidates := by
  refine ⟨rfl, ?_, rfl, rfl, ⟨?_, bestCandidate_mem rest c, ?_⟩, rfl, ?_, rfl⟩
  · simp [resolve_query, hs]
  · simp [resolve_query]
  · intro x hx
    rcases List.mem_cons.mp hx with rfl | hx
    · exact (bestCandidate_score_le rest x).1
    · exact (bestCandidate_score_le rest c).2 x hx
  · simp [resolve_lot, hs2]

/-- Witness for C9 with a 404 response and an error-status response. -/
theorem C9_resolution_witness :
    resolve_query (HttpResult.response 404 (RespBody.candidates [Candidate.mk 1 2 3]))
        (fun p => p) = none ∧
      resolve_lot (HttpResult.response 500 RespBody.missingCandidates) =
        Except.error LotFailure.badStatus :=
  ⟨(C9_resolution_behaviour (fun p => p) 404 (RespBody.candidates [Candidate.mk 1 2 3])
      (Candidate.mk 1 2 3) [] 500 RespBody.missingCandidates (by decide) (by decide)).2.1,
   (C9_resolution_behaviour (fun p => p) 404 (RespBody.candidates [Candidate.mk 1 2 3])
      (Candidate.mk 1 2 3) [] 500 RespBody.missingCandidates (by decide)
      (by decide)).2.2.2.2.2.2.1⟩

/-- C9 counterexample: a successful response whose candidate list is empty
makes resolve_lot raise (the ValueError of max over an empty sequence),
modelled as an error outcome, not an absent result: the claim that every
identifier resolution call returns None on failure instead of raising is
false for resolve_lot. -/
theorem C9_counterexample :
    resolve_lot (HttpResult.response 200 (RespBody.candidates [])) =
        Except.error LotFailure.noCandidates ∧
      ∀ p : ℚ × ℚ, resolve_lot (HttpResult.response 200 (RespBody.candidates [])) ≠
        Except.ok p := by
  constructor
  · rfl
  · intro p h
    cases h

/-- One feature of the LandsD building outline layer: its top and base
height attributes, and whether it intersects the analysis circle and the
current sector (the two shapely intersects tests, given as Booleans). -/
structure BFeature where
  TopHeight : ℚ
  BaseHeight : ℚ
  inCircle : Bool
  inSector : Bool
deriving DecidableEq

/-- The computed HEIGHT_M column: TopHeight - BaseHeight. -/
def HEIGHT_M (b : BFeature) : ℚ := b.TopHeight - b.BaseHeight

/-- The filtered landsd frame: only features strictly taller than 5 m are
kept. -/
def landsdFilter (l : List BFeature) : List BFeature :=
  l.filter (fun b => 5 < HEIGHT_M b)

/-- The nearby frame: filtered features intersecting the analysis circle. -/
def nearbyFrame (l : List BFeature) : List BFeature :=
  (landsdFilter l).filter (fun b => b.inCircle)

/-- The sector_heights frame: nearby features intersecting the sector. -/
def sector_heights (l : List BFeature) : List BFeature :=
  (nearbyFrame l).filter (fun b => b.inSector)

/-- The avg_height metric of one sector: the mean HEIGHT_M of the features
intersecting it, or 0 when none do. -/
def avg_height (l : List BFeature) : ℚ :=
  let hs := (sector_heights l).map HEIGHT_M
  if hs.length = 0 then 0 else hs.sum / (hs.length : ℚ)

/-- C10: the height layer drops every feature of computed height at most
5 m, so such buildings never reach any sector mean, and a sector whose
intersecting buildings are all of height at most 5 m gets avg_height 0. -/
theorem C10_height_filter (l : List BFeature) :
    (∀ b ∈ l, HEIGHT_M b ≤ 5 → b ∉ landsdFilter l) ∧
      ((∀ b ∈ l, b.inSector = true → HEIGHT_M b ≤ 5) → avg_height l = 0) := by
  constructor
  · intro b _ hb hmem
    have := (List.mem_filter.mp hmem).2
    simp only [decide_eq_true_eq] at this
    linarith
  · intro hall
    have hempty : sector_heights l = [] := by
      rw [List.eq_nil_iff_forall_not_mem]
      intro b hb
      have h1 := List.mem_filter.mp hb
      have h2 := List.mem_filter.mp h1.1
      have h3 := List.mem_filter.mp h2.1
      have hgt : 5 < HEIGHT_M b := by
        have := h3.2
        simpa using this
      have hsec : b.inSector = true := by
        have := h1.2
        simpa using this
      have := hall b h3.1 hsec
      linarith
    rw [avg_height, hempty]
    simp

/-- Witness for C10 on a single 4 m building intersecting the sector. -/
theorem C10_height_filter_witness :
    (BFeature.mk 4 0 true true ∉ landsdFilter [BFeature.mk 4 0 true true]) ∧
      avg_height [BFeature.mk 4 0 true true] = 0 :=
  ⟨(C10_height_filter [BFeature.mk 4 0 true true]).1 (BFeature.mk 4 0 true true)
      (List.mem_cons_self _ _) (by norm_num [HEIGHT_M]),
   (C10_height_filter [BFeature.mk 4 0 true true]).2
      (by
        intro b hb _
        rcases List.mem_cons.mp hb with rfl | hb
        · norm_num [HEIGHT_M]
        · cases hb)⟩

end SiteAnalysis
